import Mathlib

/-!
# Nomos job execution engine — verified model

A shallow embedding in Lean 4 of the core of the `nomos-rust` repository,
together with theorems settling the specification's claims about it.

The embedding translates, definition by definition:

* `src/script/utils.rs` — `substitute_parameters` (the `$(key)` template
  expansion loop), over `List Char` with explicit `find`/`replace`
  primitives mirroring Rust's `str::find`, `str::replace`;
* `src/job/mod.rs` / `src/job/models/job.rs` — `validate_parameters`,
  `merged_parameters`, `resolve_parameter_value`;
* `src/job/utils.rs` — `next_job_result_id` (decimal counter file plus
  collision-avoidance loop);
* `src/script/models.rs` — `ScriptStatus`, `RunningScriptStep` and its
  `Default`/`From<&ScriptStep>` instances, `start`, `finish`;
* `src/job/models/job_result.rs` — `JobResult` construction, `save`,
  `start_step`, `finish_step`;
* `src/job/execution.rs` — `execute_job_result_internal` (the engine loop)
  and the cancellation observer's kill sequence;
* `src/utils.rs` — `execute_script` (PID bookkeeping of the process
  runner) and `get_process_recursive`;
* `src/script/types/bash.rs` — `BashScript::execute`.

Rust strings are modelled as `List Char` (all data relevant to the claims
is ASCII, where byte indices and character indices agree); `HashMap`s are
modelled as lookup functions or association lists; filesystem and process
effects are threaded explicitly as state.  Loops whose termination depends
on runtime data (`substitute_parameters`, the engine loop, the BFS over
the process table) take an explicit fuel argument and return `none` when
it runs out; sufficient fuel makes the model agree with the source loop.
-/

namespace Nomos

/-! ## String primitives (mirroring `str::find`, `str::replace`, `str::lines`, `str::trim`) -/

/-- Index of the first occurrence of `pat` in `s`, as in Rust's `str::find`.
Returns `none` when `pat` never occurs. -/
def findSub (pat : List Char) : List Char → Option Nat
  | [] => if List.isPrefixOf pat [] then some 0 else none
  | c :: rest =>
    if List.isPrefixOf pat (c :: rest) then some 0
    else (findSub pat rest).map (· + 1)

/-- Worker for `replaceAll`: structural recursion on a step budget.  Each
step consumes at least one character of `s` — a replaced occurrence is
non-empty, a kept character is one — so the budget `s.length` supplied by
`replaceAll` never runs out; it only makes the recursion structural. -/
def replaceAllAux (pat rep : List Char) : Nat → List Char → List Char
  | 0, s => s
  | _ + 1, [] => []
  | fuel + 1, c :: rest =>
    if pat ≠ [] ∧ List.isPrefixOf pat (c :: rest) then
      rep ++ replaceAllAux pat rep fuel ((c :: rest).drop pat.length)
    else
      c :: replaceAllAux pat rep fuel rest

/-- Replace every (non-overlapping, left-to-right) occurrence of `pat` by
`rep`, as in Rust's `str::replace`. -/
def replaceAll (pat rep s : List Char) : List Char :=
  replaceAllAux pat rep s.length s

/-! ## The parameter model (`src/script/parameter.rs` as used by `src/script/utils.rs`) -/

/-- Model of `ScriptParameterType` — the tagged value type of parameters.  The
variant list is the one consumed by `substitute_parameters` in
`src/script/utils.rs` (which matches on all six, including `StringArray`). -/
inductive ScriptParameterType where
  | String (s : List Char)
  | Boolean (b : Bool)
  | Number (n : Int)
  | Password (p : List Char)
  | Credential (c : List Char)
  | StringArray (a : List (List Char))
deriving DecidableEq, Repr

/-- A parameter map (`HashMap<String, ScriptParameterType>`), as its lookup
function. -/
def Params : Type := List Char → Option ScriptParameterType

/-- The string rendering of a parameter value used by the substitution loop:
`String`/`Credential`/`Password` yield their inner string, `Boolean` and
`Number` their canonical decimal form, `StringArray` its elements joined
with `", "`. -/
def renderValue : ScriptParameterType → List Char
  | .String s => s
  | .Credential c => c
  | .Password p => p
  | .Boolean b => (toString b).data
  | .Number n => (toString n).data
  | .StringArray a => (List.intercalate (", ".data) a)

/-- Result type of a successful substitution (`SubstitutionResult`). -/
inductive SubstitutionResult where
  | Single (s : List Char)
  | Multiple (a : List (List Char))
deriving DecidableEq, Repr

/-! ## `substitute_parameters` (src/script/utils.rs, lines 18–69)

The Rust loop repeatedly finds the leftmost `$(`, requires a closing `)`,
looks the key up, and replaces every occurrence of the full `$(KEY)` token
by the rendered value, re-entering the loop on the replaced string.  The
loop can diverge (a value can reintroduce a token), so the model takes
fuel; `none` means the fuel ran out before the loop finished. -/

/-- One run of the `substitute_parameters` loop with the given fuel.
`some r` is the loop's verdict; `none` means out of fuel. -/
def substituteFuel (params : Params) (optional : Bool) :
    Nat → List Char → Option (Except (List Char) (Option SubstitutionResult))
  | 0, _ => none
  | fuel + 1, result =>
    match findSub ['$', '('] result with
    | none => some (.ok (some (.Single result)))
    | some start =>
      let remaining := result.drop start
      match findSub [')'] remaining with
      | none => some (.error ("Missing closing bracket ')'".data))
      | some e =>
        let fullParamRef := remaining.take (e + 1)
        let paramName := (remaining.drop 2).take (e - 2)
        match params paramName with
        | none =>
          if optional ∧ start = 0 ∧ e = remaining.length - 1 then
            some (.ok none)
          else
            some (.error ("Parameter '".data ++ paramName ++ "' not found".data))
        | some v =>
          if start = 0 ∧ e = remaining.length - 1 then
            match v with
            | .StringArray arr => some (.ok (some (.Multiple arr)))
            | _ =>
              substituteFuel params optional fuel
                (replaceAll fullParamRef (renderValue v) result)
          else
            substituteFuel params optional fuel
              (replaceAll fullParamRef (renderValue v) result)

/-- The proposition that `template.substitute_parameters(params, optional)`
terminates with verdict `r`: some fuel suffices. -/
def Substitutes (template : List Char) (params : Params) (optional : Bool)
    (r : Except (List Char) (Option SubstitutionResult)) : Prop :=
  ∃ fuel, substituteFuel params optional fuel template = some r

/-- Parameter map `{k ↦ String "x"}`. -/
def paramsKx : Params := fun s => if s = "k".data then some (.String "x".data) else none

/-- Parameter map `{k ↦ StringArray ["a","b"]}`. -/
def paramsKab : Params :=
  fun s => if s = "k".data then some (.StringArray ["a".data, "b".data]) else none

/-- Parameter map `{k ↦ String "$(j)", j ↦ String "z"}`. -/
def paramsNested : Params := fun s =>
  if s = "k".data then some (.String "$(j)".data)
  else if s = "j".data then some (.String "z".data) else none

/-! ## Operations, scripts, jobs
(`src/script/types/*.rs`, `src/script/parameter.rs`, `src/script/models.rs`,
`src/job/models/parameter.rs`, `src/job/models/job.rs`) -/

/-- Model of `bash` operation (`src/script/types/bash.rs`). -/
structure BashScript where
  code : List Char
deriving DecidableEq, Repr

/-- Model of `git-clone` operation (`src/script/types/git.rs`). -/
structure GitCloneScript where
  url : List Char
  credential_id : Option (List Char)
  branch : Option (List Char)
deriving DecidableEq, Repr

/-- Model of `sync` operation (`src/script/types/sync.rs`). -/
structure SyncScript where
  directory : List Char
deriving DecidableEq, Repr

/-- Model of `docker-build` operation (`src/script/types/docker.rs`). -/
structure DockerBuildScript where
  image : List Char
  dockerfile : Option (List Char)
deriving DecidableEq, Repr

/-- Model of `docker-stop` operation (`src/script/types/docker.rs`). -/
structure DockerStopScript where
  container : List Char
deriving DecidableEq, Repr

/-- A `docker run` argument (`src/script/types/docker.rs`). -/
inductive DockerRunArg where
  | Direct (s : List Char)
  | EnvFromCredential (credential_id : List Char)
deriving DecidableEq, Repr

/-- Model of `docker-run` operation (`src/script/types/docker.rs`). -/
structure DockerRunScript where
  image : List Char
  container : Option (List Char)
  args : List DockerRunArg
deriving DecidableEq, Repr

/-- The closed operation registry (`ScriptType` in `src/script/types/mod.rs`). -/
inductive ScriptType where
  | Bash (b : BashScript)
  | GitClone (g : GitCloneScript)
  | Sync (s : SyncScript)
  | DockerBuild (d : DockerBuildScript)
  | DockerStop (d : DockerStopScript)
  | DockerRun (d : DockerRunScript)
deriving DecidableEq, Repr

/-- Model of `ScriptParameter` (`src/script/parameter.rs`). -/
structure ScriptParameter where
  name : List Char
  description : List Char
  required : Bool
  default : Option ScriptParameterType
deriving DecidableEq, Repr

/-- Model of `ScriptStep` (`src/script/models.rs`). -/
structure ScriptStep where
  name : List Char
  values : List ScriptType
deriving DecidableEq, Repr

/-- Model of `Script` (`src/script/models.rs`). -/
structure Script where
  id : List Char
  name : List Char
  parameters : List ScriptParameter
  steps : List ScriptStep
deriving DecidableEq, Repr

/-- Model of `JobParameterDefinition` (`src/job/models/parameter.rs`). -/
structure JobParameterDefinition where
  name : List Char
  default : Option ScriptParameterType
deriving DecidableEq, Repr

/-- Model of `Job` (`src/job/models/job.rs`).  The trigger list is not consumed by
any claim about the execution core and is left out of the model. -/
structure Job where
  id : List Char
  name : List Char
  parameters : List JobParameterDefinition
  script_id : List Char
  read_only : Bool
deriving DecidableEq, Repr

/-! ## Parameter validation (`validate_parameters`, src/job/models/job.rs lines 124–144) -/

/-- The loop condition of `validate_parameters`:
`!is_parameter_defined && parameter.default.is_none() && parameter.required`. -/
def isMissingIn (job : Job) (p : ScriptParameter) : Bool :=
  !(job.parameters.any fun q => q.name == p.name) && p.default.isNone && p.required

/-- Model of `Job::validate_parameters` against an explicitly supplied script:
collect the names of script parameters that the job does not define, that
have no default, and that are required; fail listing them all. -/
def validate_parameters (job : Job) (script : Script) : Except (List Char) Unit :=
  let missing_parameters :=
    script.parameters.foldl
      (fun acc p => if isMissingIn job p then acc ++ [p.name] else acc) []
  if !missing_parameters.isEmpty then
    .error ("Missing required parameters: ".data
      ++ List.intercalate ", ".data missing_parameters)
  else
    .ok ()

/-- The names collected by the validation loop, as a filter. -/
def missingNames (job : Job) (script : Script) : List (List Char) :=
  (script.parameters.filter (isMissingIn job)).map (·.name)

/-! ## Parameter merging (`merged_parameters` / `resolve_parameter_value`,
src/job/models/job.rs lines 146–179) -/

/-- Model of `Job::resolve_parameter_value`: look the script parameter's name up
among the Job's parameter definitions; when the Job defines it, take the
caller-supplied value under the bare name, else that definition's default;
when the Job does not define it, take the script parameter's default. -/
def resolve_parameter_value (job : Job) (script_parameter : ScriptParameter)
    (provided_parameters : Params) : Option ScriptParameterType :=
  match job.parameters.find? (fun p => p.name == script_parameter.name) with
  | some job_param => (provided_parameters job_param.name).or job_param.default
  | none => script_parameter.default

/-- Model of `Job::merged_parameters`: a fresh map receiving, for every script
parameter whose value resolves, the value under key `parameters.<name>`
(`HashMap::insert`, so a later duplicate overwrites an earlier one). -/
def merged_parameters (job : Job) (script : Script) (provided : Params) : Params :=
  script.parameters.foldl
    (fun m p =>
      match resolve_parameter_value job p provided with
      | some v => fun key => if key = "parameters.".data ++ p.name then some v else m key
      | none => m)
    (fun _ => none)

/-! ## Step lifecycle (`src/script/models.rs`)

Wall-clock instants (`Utc::now()`) are modelled as abstract `Nat` ticks
passed in by the caller. -/

/-- Model of `ScriptStatus` (src/script/models.rs lines 10–18).  This is the full
variant list of the enum — it has no `Pending`. -/
inductive ScriptStatus where
  | Success
  | Failed
  | Aborted
deriving DecidableEq, Repr

/-- Model of `RunningScriptStep` (src/script/models.rs lines 38–45). -/
structure RunningScriptStep where
  name : List Char
  values : List ScriptType
  status : ScriptStatus
  started_at : Option Nat
  finished_at : Option Nat
deriving DecidableEq, Repr

/-- Model of `Default for RunningScriptStep` (src/script/models.rs lines 139–149):
empty name, no values, **status `Failed`**, no timestamps. -/
def RunningScriptStep.default : RunningScriptStep :=
  { name := [], values := [], status := .Failed, started_at := none, finished_at := none }

/-- Model of `From<&ScriptStep> for RunningScriptStep` (src/script/models.rs lines
151–159): copy name and values, everything else from `Default`. -/
def RunningScriptStep.ofStep (step : ScriptStep) : RunningScriptStep :=
  { RunningScriptStep.default with name := step.name, values := step.values }

/-- Model of `RunningScriptStep::start` (src/script/models.rs lines 129–131). -/
def RunningScriptStep.start (s : RunningScriptStep) (now : Nat) : RunningScriptStep :=
  { s with started_at := some now }

/-- Model of `RunningScriptStep::finish` (src/script/models.rs lines 133–136). -/
def RunningScriptStep.finish (s : RunningScriptStep) (status : ScriptStatus)
    (now : Nat) : RunningScriptStep :=
  { s with status := status, finished_at := some now }

/-! ## `JobResult` construction (`src/job/models/job_result.rs`)

The shared logger is modelled outside the structure (log records go to a
separate trace); `next_job_result_id`'s IO is modelled by passing the
allocated id in. -/

/-- Model of `JobResult` (src/job/models/job_result.rs lines 16–30). -/
structure JobResult where
  id : List Char
  job_id : List Char
  is_success : Bool
  steps : List RunningScriptStep
  current_step_name : Option (List Char)
  started_at : Nat
  updated_at : Nat
  finished_at : Option Nat
  dry_run : Bool
  child_process_ids : List Nat
deriving DecidableEq, Repr

/-- Model of `JobResult::new` (src/job/models/job_result.rs lines 33–54). -/
def JobResult.new (id job_id : List Char) (steps : List RunningScriptStep)
    (dry_run : Bool) (now : Nat) : JobResult :=
  { id := id
    job_id := job_id
    steps := steps
    current_step_name := steps.head?.map (·.name)
    is_success := false
    started_at := now
    updated_at := now
    finished_at := none
    dry_run := dry_run
    child_process_ids := [] }

/-- Model of `TryFrom<(&Job, &Script, bool)> for JobResult` (src/job/models/
job_result.rs lines 217–232): a dry run gets the literal id `dry_run`,
otherwise the freshly allocated one; steps are the script's steps through
`RunningScriptStep::from`. -/
def JobResult.ofJobScript (job : Job) (script : Script) (dry_mode : Bool)
    (freshId : List Char) (now : Nat) : JobResult :=
  let id := if !dry_mode then freshId else "dry_run".data
  JobResult.new id job.id (script.steps.map RunningScriptStep.ofStep) dry_mode now

/-! ## ID allocation (`next_job_result_id`, src/job/utils.rs lines 65–87)

The counter file's content and the set of result ids already on disk
(`JobResult::get(<candidate>).is_some()`) are passed in as explicit state.
Decimal formatting (`u64::to_string`) and parsing
(`str::parse::<u64>`, after `str::trim`) are spelled out over `List Char`. -/

/-- ASCII digit character of a value below ten. -/
def digitToChar : Nat → Char
  | 0 => '0'
  | 1 => '1'
  | 2 => '2'
  | 3 => '3'
  | 4 => '4'
  | 5 => '5'
  | 6 => '6'
  | 7 => '7'
  | 8 => '8'
  | 9 => '9'
  | _ => '*'

/-- Numeric value of an ASCII digit character (`char::to_digit(10)`). -/
def charToDigit (c : Char) : Option Nat :=
  if c.isDigit then some (c.toNat - '0'.toNat) else none

/-- Little-endian decimal digits of `n`. -/
def toDigitsRev (n : Nat) : List Nat :=
  if n < 10 then [n] else n % 10 :: toDigitsRev (n / 10)
decreasing_by exact Nat.div_lt_self (by omega) (by omega)

/-- Model of `u64::to_string`. -/
def natToString (n : Nat) : List Char :=
  (toDigitsRev n).reverse.map digitToChar

/-- Digit-accumulating worker of `str::parse::<u64>`. -/
def parseU64Go : List Char → Nat → Option Nat
  | [], acc => some acc
  | c :: rest, acc =>
    match charToDigit c with
    | some d => parseU64Go rest (acc * 10 + d)
    | none => none

/-- Model of `str::parse::<u64>` (an optional leading `+`, then at least one
decimal digit). -/
def parseU64 : List Char → Option Nat
  | [] => none
  | c :: rest =>
    if c = '+' then (if rest = [] then none else parseU64Go rest 0)
    else parseU64Go (c :: rest) 0

/-- Model of `str::trim`. -/
def trimChars (cs : List Char) : List Char :=
  ((cs.dropWhile Char.isWhitespace).reverse.dropWhile Char.isWhitespace).reverse

/-- The collision-avoidance loop of `next_job_result_id`
(`while JobResult::get(&next_id.to_string())?.is_some() { next_id += 1 }`).
The budget `taken.length + 1` given by the caller is enough for the loop
to reach a free id (`firstFreeAux_free`), so the fuel only bounds the
recursion. -/
def firstFreeAux (taken : List Nat) : Nat → Nat → Nat
  | 0, c => c
  | fuel + 1, c => if c ∈ taken then firstFreeAux taken fuel (c + 1) else c

/-- Model of `next_job_result_id`: read and parse the counter (anything unparsable,
in particular an absent or empty file, counts as 0), probe upward from the
successor until an id is unused on disk, persist and return it. -/
def next_job_result_id (content : List Char) (taken : List Nat) : Nat × List Char :=
  let id := (parseU64 (trimChars content)).getD 0
  let next_id := firstFreeAux taken (taken.length + 1) (id + 1)
  (next_id, natToString next_id)

/-! ## Recursive process enumeration and the abort kill sequence
(`get_process_recursive`, src/utils.rs lines 143–164; the cancellation
observer in `execute_with_script`, src/job/execution.rs lines 62–113) -/

/-- A snapshot of the process table: `(pid, parent pid)` pairs. -/
abbrev ProcessTable := List (Nat × Option Nat)

/-- One BFS level: the children of the given parents, per parent in table
order. -/
def childrenOf (processes : ProcessTable) (parents : List Nat) : List Nat :=
  parents.flatMap fun parent => (processes.filter (fun q => q.2 = some parent)).map (·.1)

/-- The `while !last_list.is_empty()` walk of `get_process_recursive`:
collect descendants level by level in discovery order.  The root itself is
never pushed onto `result`.  The source loop terminates on every acyclic
table; the fuel only bounds the recursion in the model. -/
def processWalk (processes : ProcessTable) : Nat → List Nat → List Nat → List Nat
  | 0, _, result => result
  | fuel + 1, last_list, result =>
    if last_list = [] then result
    else
      let new_list := childrenOf processes last_list
      processWalk processes fuel new_list (result ++ new_list)

/-- Model of `get_process_recursive(pid)`: the descendants of `pid`, discovery
order. -/
def get_process_recursive (processes : ProcessTable) (fuel pid : Nat) : List Nat :=
  processWalk processes fuel [pid] []

/-- The PIDs the cancellation observer signals for one recorded root PID
(`src/job/execution.rs` lines 72–87): the reversed descendant list, kept
only where the observer's own snapshot still lists the process (missing
ones are logged and skipped).  The observer takes its snapshot separately
from the one `get_process_recursive` takes, hence the two tables. -/
def killSequence (tableEnum tableKill : ProcessTable) (fuel root : Nat) : List Nat :=
  ((get_process_recursive tableEnum fuel root).reverse).filter
    (fun p => tableKill.any (fun q => q.1 = p))

/-! ## Process runner PID bookkeeping (`execute_script`, src/utils.rs lines 66–132) -/

/-- What `child.wait()` reports on success: `ExitStatus` as consumed by the
runner — its `success()` flag and its `Display` rendering. -/
structure ProcStatus where
  success : Bool
  display : List Char
deriving DecidableEq, Repr

/-- The environment of one `execute_script` run: whether taking the stdout
and stderr handles succeeds, and the outcome of waiting for the child. -/
structure RunEnv where
  stdoutOk : Bool
  stderrOk : Bool
  wait : Except (List Char) ProcStatus
deriving Repr

/-- Model of `execute_script(child, context)`: push the child's PID and save; take
the two stream handles (popping the PID again on failure); start the two
log pumps; wait; pop the PID; non-zero exit is an error.  Returns the
final `JobResult`, the `child_process_ids` value at each `save` call (the
only one happens before the pumps start), and the run's verdict.  The
`?` on `child.wait()` returns **before** the `pop`, which the claim C8 is
about. -/
def execute_script (jr : JobResult) (pid : Nat) (env : RunEnv) :
    JobResult × List (List Nat) × Except (List Char) Unit :=
  let jr1 := { jr with child_process_ids := jr.child_process_ids ++ [pid] }
  let saves := [jr1.child_process_ids]
  if env.stdoutOk = false then
    ({ jr1 with child_process_ids := jr1.child_process_ids.dropLast }, saves,
      .error "Failed to open stdout".data)
  else if env.stderrOk = false then
    ({ jr1 with child_process_ids := jr1.child_process_ids.dropLast }, saves,
      .error "Failed to open stderr".data)
  else
    match env.wait with
    | .error e => (jr1, saves, .error e)
    | .ok status =>
      let jr2 := { jr1 with child_process_ids := jr1.child_process_ids.dropLast }
      if status.success then (jr2, saves, .ok ())
      else (jr2, saves, .error ("Process exited with status: ".data ++ status.display))

/-! ## Result persistence and the engine loop
(`src/job/models/job_result.rs`, `src/job/execution.rs`)

The results tree on disk is the list of paths that exist under
`<results_root>`; `save` is its only writer inside the engine (log records
go under `<logs_root>`, which is a different tree and not modelled here). -/

/-- The files under `<results_root>`. -/
abbrev ResultsFs := List (List Char)

/-- Model of `JobResult::save` (src/job/models/job_result.rs lines 157–165): a dry
run returns `Ok(())` immediately; otherwise
`<results_root>/<id>/result.yml` is (re)written. -/
def JobResult.save (jr : JobResult) (fs : ResultsFs) : ResultsFs :=
  if jr.dry_run then fs
  else if (jr.id ++ "/result.yml".data) ∈ fs then fs
  else fs ++ [jr.id ++ "/result.yml".data]

/-- Mutate the first list entry with the given name
(`steps.iter_mut().find(...)`). -/
def updateFirst (l : List RunningScriptStep) (name : List Char)
    (f : RunningScriptStep → RunningScriptStep) : List RunningScriptStep :=
  match l with
  | [] => []
  | s :: rest => if s.name == name then f s :: rest else s :: updateFirst rest name f

/-- Model of `JobResult::get_current_step_mut` (lines 56–60), read-only view. -/
def JobResult.get_current_step (jr : JobResult) : Option RunningScriptStep :=
  jr.current_step_name.bind fun name => jr.steps.find? (fun step => step.name == name)

/-- Model of `JobResult::start_step` (lines 62–70): start the current step and
save; absence of a current step is the error `No current step`. -/
def JobResult.start_step (jr : JobResult) (now : Nat) (fs : ResultsFs) :
    Except (List Char) (JobResult × ResultsFs) :=
  match jr.current_step_name with
  | none => .error "No current step".data
  | some name =>
    if (jr.steps.find? (fun s => s.name == name)).isNone then
      .error "No current step".data
    else
      let jr' := { jr with steps := updateFirst jr.steps name (fun s => s.start now) }
      .ok (jr', jr'.save fs)

/-- Model of `JobResult::finish_step` (lines 72–103).  The call
`current_step.finish(is_success)` passes a `bool` where
`RunningScriptStep::finish` expects a `ScriptStatus`; it is mapped
`true ↦ Success`, `false ↦ Failed`.  On failure the result is finalised
at once; on success the pointer advances to the next step by position, or
the result is finalised after the last one. -/
def JobResult.finish_step (jr : JobResult) (is_success : Bool) (now : Nat)
    (fs : ResultsFs) : Except (List Char) (JobResult × ResultsFs) :=
  match jr.current_step_name with
  | none => .error "No current step".data
  | some current_step_name =>
    if (jr.steps.find? (fun s => s.name == current_step_name)).isNone then
      .error "Failed to get current step".data
    else
      let upd := fun s : RunningScriptStep =>
        s.finish (if is_success then .Success else .Failed) now
      let jr' := { jr with steps := updateFirst jr.steps current_step_name upd }
      if is_success = false then
        let jr'' := { jr' with is_success := false, updated_at := now, finished_at := some now }
        .ok (jr'', jr''.save fs)
      else
        match jr'.steps.findIdx? (fun s => s.name == current_step_name) with
        | some index =>
          if h : index + 1 < jr'.steps.length then
            let jr'' := { jr' with
              current_step_name := some (jr'.steps.get ⟨index + 1, h⟩).name
              updated_at := now }
            .ok (jr'', jr''.save fs)
          else
            let jr'' := { jr' with updated_at := now, finished_at := some now }
            .ok (jr'', jr''.save fs)
        | none => .ok (jr', fs)

/-- The operation registry as the engine consumes it: a step's operation
list runs against the parameter map and either fails with a message or
returns the (possibly extended) map
(`current_step.execute(&mut context)`). -/
abbrev StepExec := RunningScriptStep → Params → Except (List Char) Params

/-- What one engine run ends with: the result's final state, the results
tree, and the verdict returned to the caller. -/
structure EngineOut where
  jr : JobResult
  fs : ResultsFs
  res : Except (List Char) Unit

/-- Model of `execute_job_result_internal` (src/job/execution.rs lines 120–172):
drive the step loop until `finished_at` is set; on an operation error log
`Error in step <name>: <err>`, finish the step as failed, and — in dry-run
— return that message to the caller; otherwise break and finalise.  The
`clock` models `Utc::now()` ticks; the fuel bounds the loop (which the
source does not bound: duplicate step names can make it spin forever),
`none` meaning it ran out. -/
def engineRun (execStep : StepExec) :
    Nat → JobResult → Params → ResultsFs → Nat → Bool → Option EngineOut
  | 0, _, _, _, _, _ => none
  | fuel + 1, jr, params, fs, clock, is_success =>
    if jr.finished_at ≠ none then
      let jrF := { jr with is_success := is_success }
      some ⟨jrF, jrF.save fs, .ok ()⟩
    else
      match jr.start_step clock fs with
      | .error e => some ⟨jr, fs, .error e⟩
      | .ok (jr1, fs1) =>
        match jr1.get_current_step with
        | none => some ⟨jr1, fs1, .error "No current step found".data⟩
        | some current_step =>
          match execStep current_step params with
          | .error e =>
            let message := "Error in step ".data ++ current_step.name ++ ": ".data ++ e
            match jr1.finish_step false (clock + 1) fs1 with
            | .error e2 => some ⟨jr1, fs1, .error e2⟩
            | .ok (jr2, fs2) =>
              if jr2.dry_run then some ⟨jr2, fs2, .error message⟩
              else
                let jr3 := { jr2 with is_success := false }
                some ⟨jr3, jr3.save fs2, .ok ()⟩
          | .ok params1 =>
            match jr1.finish_step true (clock + 1) fs1 with
            | .error e2 =>
              let message := "Error finishing step ".data ++ current_step.name ++ ": ".data ++ e2
              if jr1.dry_run then some ⟨jr1, fs1, .error message⟩
              else
                let jr3 := { jr1 with is_success := false }
                some ⟨jr3, jr3.save fs1, .ok ()⟩
            | .ok (jr2, fs2) =>
              engineRun execStep fuel jr2 params1 fs2 (clock + 2) is_success

/-- A one-step script (step `s1` with no operations) and a job referring
to it, for the dry-run witness. -/
def scriptOneStep : Script := ⟨"s".data, "S".data, [], [⟨"s1".data, []⟩]⟩

/-- The job paired with `scriptOneStep`. -/
def jobForScript : Job := ⟨"j".data, "J".data, [], "s".data, false⟩

/-- An operation oracle whose every step fails with `boom`. -/
def failingExec : StepExec := fun _ _ => .error "boom".data

/-! ## `str::lines` and the bash operation
(`BashScript::execute`, src/script/types/bash.rs lines 21–59) -/

/-- Strip one trailing `\r` (the `\r\n` line-ending handling of
`str::lines`). -/
def stripTrailingCr (l : List Char) : List Char :=
  if l.getLast? = some '\r' then l.dropLast else l

/-- Worker for `rustLines`, structural on a step budget: split before each
`\n`; a final fragment without terminator is kept, a trailing empty one is
not.  A budget of `s.length` never runs out (each step consumes at least
one character). -/
def rustLinesAux : Nat → List Char → List (List Char)
  | 0, _ => []
  | fuel + 1, s =>
    if s = [] then []
    else
      match findSub ['\n'] s with
      | none => [s]
      | some i => stripTrailingCr (s.take i) :: rustLinesAux fuel (s.drop (i + 1))

/-- Model of `str::lines`. -/
def rustLines (s : List Char) : List (List Char) :=
  rustLinesAux s.length s

/-- The number of lines `str::lines` yields. -/
def lineCount (s : List Char) : Nat := (rustLines s).length

/-- Outcome of `BashScript::execute` in the model: substitution fuel ran
out, an out-of-bounds index panic, an error, or success with the emitted
`command:` log lines. -/
inductive BashResult where
  | fuelOut
  | panic
  | err (m : List Char)
  | ok (logs : List (List Char))
deriving DecidableEq, Repr

/-- The per-line loop of `BashScript::execute`: walk the substituted
lines with a counter `i`, skip empty ones, log
`command: <original_lines[i]>` (panicking when `i` is out of bounds of
the original lines), and — unless dry-run — invoke the runner, whose
error aborts the loop. -/
def bashLoop (orig : List (List Char)) (runCmd : List Char → Except (List Char) Unit)
    (dryRun : Bool) : Nat → List (List Char) → BashResult
  | _, [] => .ok []
  | i, line :: rest =>
    if line = [] then bashLoop orig runCmd dryRun (i + 1) rest
    else
      match orig.get? i with
      | none => .panic
      | some ol =>
        if dryRun then
          match bashLoop orig runCmd dryRun (i + 1) rest with
          | .ok logs => .ok (("command: ".data ++ ol) :: logs)
          | r => r
        else
          match runCmd line with
          | .error e => .err e
          | .ok _ =>
            match bashLoop orig runCmd dryRun (i + 1) rest with
            | .ok logs => .ok (("command: ".data ++ ol) :: logs)
            | r => r

/-- Model of `BashScript::execute`: substitute the code (not optional), reject
arrays, then run the line loop against the original code's lines. -/
def bashExecute (code : List Char) (params : Params) (fuel : Nat)
    (runCmd : List Char → Except (List Char) Unit) (dryRun : Bool) : BashResult :=
  match substituteFuel params false fuel code with
  | none => .fuelOut
  | some (.error e) => .err e
  | some (.ok none) => .ok []
  | some (.ok (some (.Multiple _))) => .err "Code parameter cannot be an array".data
  | some (.ok (some (.Single s))) => bashLoop (rustLines code) runCmd dryRun 0 (rustLines s)

/-! ## Theorems -/

/-- More fuel never changes a verdict already reached. -/
theorem substituteFuel_mono (params : Params) (optional : Bool) :
    ∀ fuel fuel' t r, fuel ≤ fuel' →
      substituteFuel params optional fuel t = some r →
      substituteFuel params optional fuel' t = some r := by
  intro fuel
  induction fuel with
  | zero => intro fuel' t r _ h; simp [substituteFuel] at h
  | succ n ih =>
    intro fuel' t r hle h
    obtain ⟨m, rfl⟩ : ∃ m, fuel' = m + 1 := ⟨fuel' - 1, by omega⟩
    have hnm : n ≤ m := by omega
    rw [substituteFuel] at h ⊢
    dsimp only at h ⊢
    cases hfind : findSub ['$', '('] t with
    | none => rw [hfind] at h; dsimp only at h ⊢; exact h
    | some start =>
      rw [hfind] at h
      dsimp only at h ⊢
      cases hclose : findSub [')'] (t.drop start) with
      | none => rw [hclose] at h; dsimp only at h ⊢; exact h
      | some e =>
        rw [hclose] at h
        dsimp only at h ⊢
        cases hval : params (((t.drop start).drop 2).take (e - 2)) with
        | none => rw [hval] at h; dsimp only at h ⊢; exact h
        | some v =>
          rw [hval] at h
          dsimp only at h ⊢
          by_cases hpure : start = 0 ∧ e = (t.drop start).length - 1
          · rw [if_pos hpure] at h ⊢
            cases v with
            | StringArray arr => exact h
            | String s => exact ih m _ r hnm h
            | Boolean b => exact ih m _ r hnm h
            | Number k => exact ih m _ r hnm h
            | Password p => exact ih m _ r hnm h
            | Credential c => exact ih m _ r hnm h
          · rw [if_neg hpure] at h ⊢
            exact ih m _ r hnm h

/-- The loop's verdict is deterministic. -/
theorem Substitutes.unique {t : List Char} {params : Params} {optional : Bool}
    {r r' : Except (List Char) (Option SubstitutionResult)}
    (h : Substitutes t params optional r) (h' : Substitutes t params optional r') :
    r = r' := by
  obtain ⟨f, hf⟩ := h
  obtain ⟨f', hf'⟩ := h'
  rcases le_total f f' with hle | hle
  · have := substituteFuel_mono params optional f f' t r hle hf
    rw [this] at hf'; exact Option.some_inj.mp hf'
  · have := substituteFuel_mono params optional f' f t r' hle hf'
    rw [this] at hf; exact (Option.some_inj.mp hf).symm

/-- A successful `Single` verdict is only produced when the scan finds no
further `$(` in the working string, so the final string holds no token. -/
theorem substituteFuel_single_no_token (params : Params) (optional : Bool) :
    ∀ fuel t s,
      substituteFuel params optional fuel t = some (.ok (some (.Single s))) →
      findSub ['$', '('] s = none := by
  intro fuel
  induction fuel with
  | zero => intro t s h; simp [substituteFuel] at h
  | succ n ih =>
    intro t s h
    rw [substituteFuel] at h
    dsimp only at h
    cases hfind : findSub ['$', '('] t with
    | none =>
      rw [hfind] at h
      dsimp only at h
      obtain rfl : t = s := by
        have := Option.some_inj.mp h
        cases this
        rfl
      exact hfind
    | some start =>
      rw [hfind] at h
      dsimp only at h
      cases hclose : findSub [')'] (t.drop start) with
      | none => rw [hclose] at h; simp at h
      | some e =>
        rw [hclose] at h
        dsimp only at h
        cases hval : params (((t.drop start).drop 2).take (e - 2)) with
        | none =>
          rw [hval] at h
          dsimp only at h
          split at h <;> simp at h
        | some v =>
          rw [hval] at h
          dsimp only at h
          by_cases hpure : start = 0 ∧ e = (t.drop start).length - 1
          · rw [if_pos hpure] at h
            cases v with
            | StringArray arr => simp at h
            | String s' => exact ih _ _ h
            | Boolean b => exact ih _ _ h
            | Number k => exact ih _ _ h
            | Password p' => exact ih _ _ h
            | Credential c => exact ih _ _ h
          · rw [if_neg hpure] at h
            exact ih _ _ h

/-- C1.  The substitution laws of the specification: a lone `$(k)` token
resolving to `String "x"` yields `Single "x"`; resolving to
`StringArray ["a","b"]` yields `Multiple ["a","b"]`; embedded in
surrounding text the array is joined to `Single "pre-a, b-post"`; a
missing key under `optional=true` on a lone token yields `None`, and
otherwise the error `Parameter 'missing' not found`. -/
theorem substitution_laws :
    (∀ p : Params, p "k".data = some (.String "x".data) →
      Substitutes "$(k)".data p false (.ok (some (.Single "x".data)))) ∧
    (∀ p : Params, p "k".data = some (.StringArray ["a".data, "b".data]) →
      Substitutes "$(k)".data p false (.ok (some (.Multiple ["a".data, "b".data])))) ∧
    (∀ p : Params, p "k".data = some (.StringArray ["a".data, "b".data]) →
      Substitutes "pre-$(k)-post".data p false (.ok (some (.Single "pre-a, b-post".data)))) ∧
    (∀ p : Params, p "missing".data = none →
      Substitutes "$(missing)".data p true (.ok none)) ∧
    (∀ p : Params, p "missing".data = none →
      Substitutes "$(missing)".data p false
        (.error "Parameter 'missing' not found".data)) := by
  refine ⟨fun p h => ⟨2, ?_⟩, fun p h => ⟨1, ?_⟩, fun p h => ⟨2, ?_⟩,
    fun p h => ⟨1, ?_⟩, fun p h => ⟨1, ?_⟩⟩ <;>
    simp [substituteFuel, findSub, replaceAll, replaceAllAux, h, List.isPrefixOf,
      renderValue, List.intercalate]

/-- C1 witness: the five laws at the concrete maps `{k ↦ String "x"}`,
`{k ↦ StringArray ["a","b"]}` and the empty map. -/
theorem substitution_laws_witness :
    Substitutes "$(k)".data paramsKx false (.ok (some (.Single "x".data))) ∧
    Substitutes "$(k)".data paramsKab false
      (.ok (some (.Multiple ["a".data, "b".data]))) ∧
    Substitutes "pre-$(k)-post".data paramsKab false
      (.ok (some (.Single "pre-a, b-post".data))) ∧
    Substitutes "$(missing)".data (fun _ => none) true (.ok none) ∧
    Substitutes "$(missing)".data (fun _ => none) false
      (.error "Parameter 'missing' not found".data) :=
  ⟨substitution_laws.1 paramsKx rfl,
   substitution_laws.2.1 paramsKab rfl,
   substitution_laws.2.2.1 paramsKab rfl,
   substitution_laws.2.2.2.1 (fun _ => none) rfl,
   substitution_laws.2.2.2.2 (fun _ => none) rfl⟩

/-- C9 counterexample: substitution is not eager.  With
`{k ↦ "$(j)", j ↦ "z"}`, the template `$(k)` succeeds with `Single "z"`:
the value `"$(j)"` introduced by expanding `k` was re-scanned and resolved
rather than appearing verbatim (the result does not even contain it). -/
theorem substitution_rescans_counterexample :
    paramsNested "k".data = some (.String "$(j)".data) ∧
    substituteFuel paramsNested false 3 "$(k)".data
      = some (.ok (some (.Single "z".data))) ∧
    findSub "$(j)".data "z".data = none :=
  ⟨rfl, rfl, rfl⟩

/-- C9 (amended).  Substitution re-scans replaced text: the loop runs until
the working string holds no `$(` at all, so any successful `Single` result
contains no `$(` occurrence — a value containing a token is resolved
further (or the run fails), never left verbatim. -/
theorem substitution_rescans (t s : List Char) (params : Params) (optional : Bool)
    (h : Substitutes t params optional (.ok (some (.Single s)))) :
    findSub ['$', '('] s = none := by
  obtain ⟨fuel, hf⟩ := h
  exact substituteFuel_single_no_token params optional fuel t s hf

/-- C9 witness: the amended theorem at the counterexample's input. -/
theorem substitution_rescans_witness : findSub ['$', '('] "z".data = none :=
  substitution_rescans "$(k)".data "z".data paramsNested false ⟨3, rfl⟩

theorem foldl_collect {α β : Type} (f : α → Bool) (g : α → β) :
    ∀ (l : List α) (acc : List β),
      l.foldl (fun acc x => if f x then acc ++ [g x] else acc) acc
        = acc ++ (l.filter f).map g := by
  intro l
  induction l with
  | nil => simp
  | cons x xs ih =>
    intro acc
    by_cases h : f x <;> simp [h, ih, List.filter_cons]

theorem validate_parameters_eq (job : Job) (script : Script) :
    validate_parameters job script =
      if missingNames job script = [] then .ok ()
      else .error ("Missing required parameters: ".data
        ++ List.intercalate ", ".data (missingNames job script)) := by
  unfold validate_parameters missingNames
  rw [foldl_collect (isMissingIn job) (·.name) script.parameters []]
  simp only [List.nil_append]
  by_cases h : (script.parameters.filter (isMissingIn job)).map (·.name) = []
  · rw [if_pos h, h]; simp
  · rw [if_neg h]
    have hie : ((script.parameters.filter (isMissingIn job)).map (·.name)).isEmpty = false := by
      simpa [List.isEmpty_iff] using h
    rw [hie]
    simp

/-- C3.  Validation fails exactly when some script parameter is required,
has no default, and is not defined among the Job's parameters; the error
is `Missing required parameters: ` followed by every such name joined with
`", "` (in script declaration order).  The function is pure, so it has no
side effects. -/
theorem validate_parameters_spec (job : Job) (script : Script) :
    ((∃ e, validate_parameters job script = .error e) ↔
      ∃ p ∈ script.parameters,
        p.required = true ∧ p.default = none ∧
          ¬∃ q ∈ job.parameters, q.name = p.name) ∧
    (∀ e, validate_parameters job script = .error e →
      e = "Missing required parameters: ".data
        ++ List.intercalate ", ".data (missingNames job script)) := by
  constructor
  · rw [validate_parameters_eq]
    constructor
    · intro ⟨e, he⟩
      by_cases h : missingNames job script = []
      · rw [if_pos h] at he; cases he
      · obtain ⟨p, hp, hcond⟩ : ∃ p ∈ script.parameters, isMissingIn job p := by
          rcases hfe : script.parameters.filter (isMissingIn job) with _ | ⟨p, ps⟩
          · exact absurd (by simp [missingNames, hfe]) h
          · exact ⟨p, List.mem_of_mem_filter (hfe ▸ List.mem_cons_self p ps),
              List.of_mem_filter (hfe ▸ List.mem_cons_self p ps)⟩
        refine ⟨p, hp, ?_⟩
        simp only [isMissingIn, Bool.and_eq_true, Bool.not_eq_true', List.any_eq_false,
          beq_iff_eq, Option.isNone_iff_eq_none] at hcond
        exact ⟨hcond.2, hcond.1.2, fun ⟨q, hq, hname⟩ => hcond.1.1 q hq hname⟩
    · intro ⟨p, hp, hreq, hdef, hundef⟩
      have hcond : isMissingIn job p := by
        simp only [isMissingIn, Bool.and_eq_true, Bool.not_eq_true', List.any_eq_false,
          beq_iff_eq, Option.isNone_iff_eq_none]
        exact ⟨⟨fun q hq hname => hundef ⟨q, hq, hname⟩, hdef⟩, hreq⟩
      have hmem : p.name ∈ missingNames job script :=
        List.mem_map_of_mem _ (List.mem_filter.mpr ⟨hp, hcond⟩)
      have hne : missingNames job script ≠ [] := by
        intro h0; rw [h0] at hmem; cases hmem
      exact ⟨_, by rw [if_neg hne]⟩
  · intro e he
    rw [validate_parameters_eq] at he
    by_cases h : missingNames job script = []
    · rw [if_pos h] at he; cases he
    · rw [if_neg h] at he; exact (Except.error.injEq _ _ ▸ he).symm ▸ rfl

theorem merged_fold_preserve (job : Job) (provided : Params) :
    ∀ (l : List ScriptParameter) (m : Params) (key : List Char),
      (∀ sp ∈ l, key ≠ "parameters.".data ++ sp.name) →
      l.foldl
        (fun m p =>
          match resolve_parameter_value job p provided with
          | some v => fun key => if key = "parameters.".data ++ p.name then some v else m key
          | none => m) m key = m key := by
  intro l
  induction l with
  | nil => intro m key _; rfl
  | cons x xs ih =>
    intro m key hkey
    simp only [List.foldl_cons]
    rw [ih _ key (fun sp hsp => hkey sp (List.mem_cons_of_mem x hsp))]
    cases hres : resolve_parameter_value job x provided with
    | none => rfl
    | some v => exact if_neg (hkey x (List.mem_cons_self x xs))

theorem paramKey_inj {a b : List Char}
    (h : "parameters.".data ++ a = "parameters.".data ++ b) : a = b :=
  List.append_cancel_left h

theorem merged_fold_lookup (job : Job) (provided : Params) :
    ∀ (l : List ScriptParameter) (m : Params) (sp : ScriptParameter),
      sp ∈ l → (l.map (·.name)).Nodup →
      l.foldl
        (fun m p =>
          match resolve_parameter_value job p provided with
          | some v => fun key => if key = "parameters.".data ++ p.name then some v else m key
          | none => m) m ("parameters.".data ++ sp.name)
        = match resolve_parameter_value job sp provided with
          | some v => some v
          | none => m ("parameters.".data ++ sp.name) := by
  intro l
  induction l with
  | nil => intro m sp hmem _; cases hmem
  | cons x xs ih =>
    intro m sp hmem hnodup
    have hnodup' : (xs.map (·.name)).Nodup := (List.nodup_cons.mp (by simpa using hnodup)).2
    have hxnot : x.name ∉ xs.map (·.name) := (List.nodup_cons.mp (by simpa using hnodup)).1
    simp only [List.foldl_cons]
    rcases List.mem_cons.mp hmem with rfl | hmemxs
    · have hpres :
          ∀ m' : Params,
            xs.foldl
              (fun m p =>
                match resolve_parameter_value job p provided with
                | some v =>
                  fun key => if key = "parameters.".data ++ p.name then some v else m key
                | none => m) m' ("parameters.".data ++ sp.name)
              = m' ("parameters.".data ++ sp.name) := by
        intro m'
        refine merged_fold_preserve job provided xs m' _ ?_
        intro q hq hkey
        exact hxnot (paramKey_inj hkey ▸ List.mem_map_of_mem (·.name) hq)
      rw [hpres]
      cases hres : resolve_parameter_value job sp provided with
      | some v => simp [hres]
      | none => simp [hres]
    · have hne : x.name ≠ sp.name := by
        intro h
        exact hxnot (h ▸ List.mem_map_of_mem (·.name) hmemxs)
      rw [ih _ sp hmemxs hnodup']
      cases hres : resolve_parameter_value job sp provided with
      | some v => rfl
      | none =>
        cases hresx : resolve_parameter_value job x provided with
        | none => rfl
        | some w =>
          exact if_neg (fun h => hne (paramKey_inj h).symm)

/-- C2 counterexample.  The code resolves a parameter through the Job's
own definition first: (a) when the Job does **not** define `p`, a
caller-supplied `p = "c"` is ignored and the script default `"d"` wins,
contradicting the claimed caller-first order; (b) when the Job defines `p`
without a default and the caller supplies nothing, the script parameter's
default `"d"` is **not** consulted and the key is omitted. -/
theorem merged_parameters_counterexample :
    (merged_parameters ⟨"j".data, "j".data, [], "s".data, false⟩
        ⟨"s".data, "s".data, [⟨"p".data, [], true, some (.String "d".data)⟩], []⟩
        (fun k => if k = "p".data then some (.String "c".data) else none)
        "parameters.p".data = some (.String "d".data) ∧
      (ScriptParameterType.String "d".data) ≠ .String "c".data) ∧
    (merged_parameters ⟨"j".data, "j".data, [⟨"p".data, none⟩], "s".data, false⟩
        ⟨"s".data, "s".data, [⟨"p".data, [], true, some (.String "d".data)⟩], []⟩
        (fun _ => none) "parameters.p".data = none) :=
  ⟨⟨rfl, by decide⟩, rfl⟩

/-- C2 (amended).  For a script whose parameter names are distinct, the
value merged under `parameters.<p>` is resolved through the Job: if the
Job defines `p` (first definition `jp`), it is the caller-supplied value
under the bare name, else `jp`'s default — the script parameter's own
default is not consulted; if the Job does not define `p`, it is the script
parameter's default — caller-supplied values are ignored.  A parameter
whose chain yields nothing is omitted, and no other key is ever
populated. -/
theorem merged_parameters_precedence (job : Job) (script : Script) (provided : Params)
    (hnodup : (script.parameters.map (·.name)).Nodup) :
    (∀ sp ∈ script.parameters,
      merged_parameters job script provided ("parameters.".data ++ sp.name)
        = match job.parameters.find? (fun p => p.name == sp.name) with
          | some jp => (provided jp.name).or jp.default
          | none => sp.default) ∧
    (∀ key, (∀ sp ∈ script.parameters, key ≠ "parameters.".data ++ sp.name) →
      merged_parameters job script provided key = none) := by
  constructor
  · intro sp hsp
    have h := merged_fold_lookup job provided script.parameters (fun _ => none) sp hsp hnodup
    unfold merged_parameters
    cases hres : resolve_parameter_value job sp provided with
    | some v =>
      rw [hres] at h
      dsimp only at h
      rw [h]
      show some v = resolve_parameter_value job sp provided
      exact hres.symm
    | none =>
      rw [hres] at h
      dsimp only at h
      rw [h]
      show (none : Option ScriptParameterType) = resolve_parameter_value job sp provided
      exact hres.symm
  · intro key hkey
    exact merged_fold_preserve job provided script.parameters (fun _ => none) key hkey

/-- C2 witness: with script parameter `p` (default `"d"`), job parameter
`p` (default `"j"`), and caller-supplied `p = "c"`, the merged value is
`"c"`. -/
theorem merged_parameters_precedence_witness :
    merged_parameters ⟨"j".data, "j".data, [⟨"p".data, some (.String "j".data)⟩], "s".data, false⟩
      ⟨"s".data, "s".data, [⟨"p".data, [], true, some (.String "d".data)⟩], []⟩
      (fun k => if k = "p".data then some (.String "c".data) else none)
      "parameters.p".data = some (.String "c".data) := by
  have h := (merged_parameters_precedence
    ⟨"j".data, "j".data, [⟨"p".data, some (.String "j".data)⟩], "s".data, false⟩
    ⟨"s".data, "s".data, [⟨"p".data, [], true, some (.String "d".data)⟩], []⟩
    (fun k => if k = "p".data then some (.String "c".data) else none)
    (by simp)).1 ⟨"p".data, [], true, some (.String "d".data)⟩ (by simp)
  exact h.trans rfl

/-- C5 counterexample.  A step materialised for a run does not start
`Pending` — `ScriptStatus` has no such variant; via `Default`, the initial
status is the terminal `Failed`, before `finish` has ever run. -/
theorem step_initial_status_counterexample :
    (RunningScriptStep.ofStep ⟨"build".data, []⟩).status = .Failed ∧
    (RunningScriptStep.ofStep ⟨"build".data, []⟩).finished_at = none ∧
    (RunningScriptStep.ofStep ⟨"build".data, []⟩).started_at = none :=
  ⟨rfl, rfl, rfl⟩

/-- C5 (amended).  When a `JobResult` is constructed for a run, every step
of the script is materialised as a `RunningScriptStep` whose initial
status is `Failed` (the `Default` — the status enum has only `Success`,
`Failed`, `Aborted` and no `Pending`), with no timestamps; `start` never
changes a status, and a status is (re)assigned only by `finish`, which
also sets `finished_at`. -/
theorem steps_materialised_default_failed (job : Job) (script : Script) (dry : Bool)
    (freshId : List Char) (now : Nat) :
    (JobResult.ofJobScript job script dry freshId now).steps
        = script.steps.map RunningScriptStep.ofStep ∧
    (∀ rs ∈ (JobResult.ofJobScript job script dry freshId now).steps,
      rs.status = .Failed ∧ rs.started_at = none ∧ rs.finished_at = none) ∧
    (∀ (rs : RunningScriptStep) (t : Nat),
      (rs.start t).status = rs.status ∧ (rs.start t).started_at = some t) ∧
    (∀ (rs : RunningScriptStep) (st : ScriptStatus) (t : Nat),
      (rs.finish st t).status = st ∧ (rs.finish st t).finished_at = some t) := by
  refine ⟨rfl, ?_, fun rs t => ⟨rfl, rfl⟩, fun rs st t => ⟨rfl, rfl⟩⟩
  intro rs hrs
  simp only [JobResult.ofJobScript, JobResult.new, List.mem_map] at hrs
  obtain ⟨s, _, rfl⟩ := hrs
  exact ⟨rfl, rfl, rfl⟩

theorem digitToChar_not_ws (d : Nat) : (digitToChar d).isWhitespace = false := by
  rcases d with _|_|_|_|_|_|_|_|_|_|d <;> rfl

theorem digitToChar_ne_plus (d : Nat) : digitToChar d ≠ '+' := by
  rcases d with _|_|_|_|_|_|_|_|_|_|d
  case succ => exact (by decide : ('*' : Char) ≠ '+')
  all_goals decide

theorem charToDigit_digitToChar {d : Nat} (h : d < 10) :
    charToDigit (digitToChar d) = some d := by
  rcases d with _|_|_|_|_|_|_|_|_|_|d
  case succ => omega
  all_goals decide

theorem toDigitsRev_lt (n : Nat) : ∀ d ∈ toDigitsRev n, d < 10 := by
  induction n using Nat.strong_induction_on with
  | _ n ih =>
    intro d hd
    rw [toDigitsRev] at hd
    by_cases h : n < 10
    · rw [if_pos h] at hd
      simp at hd
      omega
    · rw [if_neg h] at hd
      rcases List.mem_cons.mp hd with rfl | hd'
      · omega
      · exact ih (n / 10) (Nat.div_lt_self (by omega) (by omega)) d hd'

theorem toDigitsRev_ne_nil (n : Nat) : toDigitsRev n ≠ [] := by
  rw [toDigitsRev]
  by_cases h : n < 10 <;> simp [h]

theorem dropWhile_eq_self_of_none {p : Char → Bool} :
    ∀ {cs : List Char}, (∀ c ∈ cs, p c = false) → cs.dropWhile p = cs := by
  intro cs h
  cases cs with
  | nil => rfl
  | cons c rest =>
    rw [List.dropWhile_cons, h c (List.mem_cons_self c rest)]
    simp

theorem trimChars_eq_self {cs : List Char}
    (h : ∀ c ∈ cs, c.isWhitespace = false) : trimChars cs = cs := by
  unfold trimChars
  rw [dropWhile_eq_self_of_none h,
    dropWhile_eq_self_of_none (fun c hc => h c (List.mem_reverse.mp hc)),
    List.reverse_reverse]

theorem parseU64Go_digits :
    ∀ (ds : List Nat) (acc : Nat), (∀ d ∈ ds, d < 10) →
      parseU64Go (ds.map digitToChar) acc
        = some (ds.foldl (fun a d => a * 10 + d) acc) := by
  intro ds
  induction ds with
  | nil => intro acc _; rfl
  | cons d rest ih =>
    intro acc h
    rw [List.map_cons, parseU64Go, charToDigit_digitToChar (h d (List.mem_cons_self d rest))]
    exact ih _ (fun x hx => h x (List.mem_cons_of_mem d hx))

theorem revDigits_foldl (n : Nat) : ∀ acc : Nat,
    ((toDigitsRev n).reverse).foldl (fun a d => a * 10 + d) acc
      = acc * 10 ^ (toDigitsRev n).length + n := by
  induction n using Nat.strong_induction_on with
  | _ n ih =>
    intro acc
    rw [toDigitsRev]
    by_cases h : n < 10
    · rw [if_pos h]; simp
    · rw [if_neg h]
      simp only [List.reverse_cons, List.foldl_append, List.foldl_cons, List.foldl_nil,
        List.length_cons]
      rw [ih (n / 10) (Nat.div_lt_self (by omega) (by omega)) acc]
      have h2 : n / 10 * 10 + n % 10 = n := by omega
      calc (acc * 10 ^ (toDigitsRev (n / 10)).length + n / 10) * 10 + n % 10
          = acc * (10 ^ (toDigitsRev (n / 10)).length * 10) + (n / 10 * 10 + n % 10) := by
            ring
        _ = acc * 10 ^ ((toDigitsRev (n / 10)).length + 1) + n := by rw [h2, ← pow_succ]

theorem parseU64_of_head_digit :
    ∀ (l : List Nat), l ≠ [] → parseU64 (l.map digitToChar) = parseU64Go (l.map digitToChar) 0 := by
  intro l hl
  cases l with
  | nil => exact absurd rfl hl
  | cons d ds =>
    rw [List.map_cons, parseU64, if_neg (digitToChar_ne_plus d)]

theorem parseU64_natToString (n : Nat) : parseU64 (natToString n) = some n := by
  unfold natToString
  rw [parseU64_of_head_digit _ (by simp [toDigitsRev_ne_nil n])]
  rw [parseU64Go_digits _ 0 (fun x hx => toDigitsRev_lt n x (List.mem_reverse.mp hx))]
  rw [revDigits_foldl n 0]
  simp

theorem natToString_not_ws (n : Nat) : ∀ c ∈ natToString n, c.isWhitespace = false := by
  intro c hc
  obtain ⟨d, _, rfl⟩ := List.mem_map.mp hc
  exact digitToChar_not_ws d

theorem firstFreeAux_ge (taken : List Nat) :
    ∀ (fuel c : Nat), c ≤ firstFreeAux taken fuel c := by
  intro fuel
  induction fuel with
  | zero => intro c; exact le_refl c
  | succ f ih =>
    intro c
    rw [firstFreeAux]
    by_cases h : c ∈ taken
    · rw [if_pos h]; exact le_trans (by omega) (ih (c + 1))
    · rw [if_neg h]

theorem firstFreeAux_min (taken : List Nat) :
    ∀ (fuel c m : Nat), c ≤ m → m < firstFreeAux taken fuel c → m ∈ taken := by
  intro fuel
  induction fuel with
  | zero => intro c m hcm hlt; rw [firstFreeAux] at hlt; omega
  | succ f ih =>
    intro c m hcm hlt
    rw [firstFreeAux] at hlt
    by_cases h : c ∈ taken
    · rw [if_pos h] at hlt
      rcases Nat.eq_or_lt_of_le hcm with rfl | hlt'
      · exact h
      · exact ih (c + 1) m hlt' hlt
    · rw [if_neg h] at hlt; omega

theorem firstFreeAux_free (taken : List Nat) :
    ∀ (fuel c : Nat), (taken.toFinset.filter (fun x => c ≤ x)).card < fuel →
      firstFreeAux taken fuel c ∉ taken := by
  intro fuel
  induction fuel with
  | zero => intro c h; exact absurd h (Nat.not_lt_zero _)
  | succ f ih =>
    intro c h
    rw [firstFreeAux]
    by_cases hc : c ∈ taken
    · rw [if_pos hc]
      apply ih
      have hmemf : c ∈ taken.toFinset.filter (fun x => c ≤ x) :=
        Finset.mem_filter.mpr ⟨List.mem_toFinset.mpr hc, by omega⟩
      have heq : taken.toFinset.filter (fun x => c + 1 ≤ x)
          = (taken.toFinset.filter (fun x => c ≤ x)).erase c := by
        ext x
        simp only [Finset.mem_filter, Finset.mem_erase, List.mem_toFinset]
        constructor
        · intro ⟨hx, hge⟩; exact ⟨by omega, hx, by omega⟩
        · intro ⟨hne, hx, hge⟩; exact ⟨hx, by omega⟩
      rw [heq, Finset.card_erase_of_mem hmemf]
      have hpos : 0 < (taken.toFinset.filter (fun x => c ≤ x)).card :=
        Finset.card_pos.mpr ⟨c, hmemf⟩
      omega
    · rw [if_neg hc]; exact hc

/-- C4.  `next_job_result_id` over (file content, ids on disk): (a)
successive calls return strictly increasing ids, whatever happens to the
results directory in between; (b) the returned id is not an id already on
disk; (c) every id skipped between the parsed counter's successor and the
returned id was taken on disk (the loop increments exactly while a result
exists); (d) the file is rewritten with the decimal form of the returned
id. -/
theorem next_job_result_id_spec (content : List Char) (taken taken' : List Nat) :
    ((next_job_result_id content taken).1
        < (next_job_result_id (next_job_result_id content taken).2 taken').1) ∧
    ((next_job_result_id content taken).1 ∉ taken) ∧
    (∀ m, (parseU64 (trimChars content)).getD 0 < m →
      m < (next_job_result_id content taken).1 → m ∈ taken) ∧
    ((next_job_result_id content taken).2
        = natToString (next_job_result_id content taken).1) := by
  refine ⟨?_, ?_, ?_, rfl⟩
  · unfold next_job_result_id
    dsimp only
    rw [trimChars_eq_self (natToString_not_ws _), parseU64_natToString]
    dsimp only [Option.getD_some]
    have h1 := firstFreeAux_ge taken'
      (taken'.length + 1)
      (firstFreeAux taken (taken.length + 1)
        ((parseU64 (trimChars content)).getD 0 + 1) + 1)
    omega
  · unfold next_job_result_id
    dsimp only
    apply firstFreeAux_free
    calc (taken.toFinset.filter (fun x => (parseU64 (trimChars content)).getD 0 + 1 ≤ x)).card
        ≤ taken.toFinset.card := Finset.card_filter_le _ _
      _ ≤ taken.length := taken.toFinset_card_le
      _ < taken.length + 1 := by omega
  · intro m h1 h2
    exact firstFreeAux_min taken (taken.length + 1) _ m (by omega) h2

/-- C7: the kill sequence over a two-process table — root PID 1 with a
single child 2, both alive in both snapshots.  The observer signals only
the descendant `[2]`; the root PID 1 is present in the table yet never
signalled, although the code's own comment (`// Kill child processes
first`) and the spec call for the root to be signalled after its
descendants. -/
theorem killSequence_omits_root :
    killSequence [(1, none), (2, some 1)] [(1, none), (2, some 1)] 3 1 = [2] ∧
    1 ∉ killSequence [(1, none), (2, some 1)] [(1, none), (2, some 1)] 3 1 ∧
    (1, none) ∈ ([(1, none), (2, some 1)] : ProcessTable) :=
  ⟨rfl, by decide, by decide⟩

/-- C8 counterexample.  When `child.wait()` itself fails, the `?` operator
returns the error before the `pop`: starting from an empty PID list, the
run ends in error with the child's PID still recorded. -/
theorem execute_script_wait_error_keeps_pid :
    (execute_script (JobResult.new "1".data "j".data [] false 0) 42
        ⟨true, true, .error "waitpid failed".data⟩).1.child_process_ids = [42] ∧
    (execute_script (JobResult.new "1".data "j".data [] false 0) 42
        ⟨true, true, .error "waitpid failed".data⟩).2.2
      = .error "waitpid failed".data :=
  ⟨rfl, rfl⟩

/-- C8 (amended).  The spawned child's PID is appended and the result
saved before the pumps start (the one save precedes them and already
holds the PID); the PID is removed again on successful completion, on a
non-zero exit (reported as `Process exited with status: <status>`), and
when taking stdout/stderr fails — but **not** when waiting for the child
itself fails, where the error returns with the PID still recorded. -/
theorem execute_script_pid_bookkeeping (jr : JobResult) (pid : Nat)
    (se : Bool) (w : Except (List Char) ProcStatus) (st : ProcStatus) (e : List Char) :
    ((execute_script jr pid ⟨true, true, .ok st⟩).2.1
        = [jr.child_process_ids ++ [pid]]) ∧
    ((execute_script jr pid ⟨true, true, .ok st⟩).1.child_process_ids
        = jr.child_process_ids) ∧
    ((execute_script jr pid ⟨true, true, .ok st⟩).2.2
        = if st.success then .ok ()
          else .error ("Process exited with status: ".data ++ st.display)) ∧
    ((execute_script jr pid ⟨false, se, w⟩).1.child_process_ids
        = jr.child_process_ids) ∧
    ((execute_script jr pid ⟨true, false, w⟩).1.child_process_ids
        = jr.child_process_ids) ∧
    ((execute_script jr pid ⟨true, true, .error e⟩).1.child_process_ids
        = jr.child_process_ids ++ [pid]) ∧
    ((execute_script jr pid ⟨true, true, .error e⟩).2.2 = .error e) := by
  obtain ⟨succ, disp⟩ := st
  unfold execute_script
  cases succ <;>
    refine ⟨rfl, ?_, rfl, ?_, ?_, rfl, rfl⟩ <;>
    simp

theorem JobResult.save_dry (jr : JobResult) (h : jr.dry_run = true) (fs : ResultsFs) :
    jr.save fs = fs := by
  unfold JobResult.save
  rw [h]
  simp

theorem find?_updateFirst (name : List Char) (f : RunningScriptStep → RunningScriptStep)
    (hf : ∀ s, (f s).name = s.name) :
    ∀ l : List RunningScriptStep,
      (updateFirst l name f).find? (fun s => s.name == name)
        = (l.find? (fun s => s.name == name)).map f := by
  intro l
  induction l with
  | nil => rfl
  | cons s rest ih =>
    rw [updateFirst]
    by_cases h : (s.name == name) = true
    · rw [if_pos h]
      simp only [List.find?, hf s, h]
      rfl
    · have hb : (s.name == name) = false := by simpa using h
      rw [if_neg h]
      simp only [List.find?, hb]
      exact ih

theorem start_step_dry {jr : JobResult} {now : Nat} {fs : ResultsFs}
    (hdry : jr.dry_run = true) :
    ∀ jr1 fs1, jr.start_step now fs = .ok (jr1, fs1) → jr1.dry_run = true ∧ fs1 = fs := by
  intro jr1 fs1
  unfold JobResult.start_step
  split
  · intro h; cases h
  · split
    · intro h; cases h
    · intro h
      simp only [Except.ok.injEq, Prod.mk.injEq] at h
      obtain ⟨h1, h2⟩ := h
      subst h1
      exact ⟨hdry, by rw [← h2]; exact JobResult.save_dry _ hdry fs⟩

theorem finish_step_dry {jr : JobResult} {b : Bool} {now : Nat} {fs : ResultsFs}
    (hdry : jr.dry_run = true) :
    ∀ jr2 fs2, jr.finish_step b now fs = .ok (jr2, fs2) → jr2.dry_run = true ∧ fs2 = fs := by
  intro jr2 fs2 h
  unfold JobResult.finish_step at h
  repeat' first | split at h | dsimp only at h
  all_goals
    first
      | (simp only [Except.ok.injEq, Prod.mk.injEq] at h
         obtain ⟨h1, h2⟩ := h
         subst h1
         first
           | exact ⟨hdry, by rw [← h2]; exact JobResult.save_dry _ hdry fs⟩
           | exact ⟨hdry, h2.symm⟩)
      | exact ⟨hdry, JobResult.save_dry _ hdry fs⟩
      | cases h

theorem engineRun_dry_frame (execStep : StepExec) :
    ∀ (fuel : Nat) (jr : JobResult) (params : Params) (fs : ResultsFs) (clock : Nat)
      (b : Bool) (out : EngineOut),
      jr.dry_run = true → engineRun execStep fuel jr params fs clock b = some out →
      out.fs = fs ∧ out.jr.dry_run = true := by
  intro fuel
  induction fuel with
  | zero => intro jr params fs clock b out _ h; simp [engineRun] at h
  | succ f ih =>
    intro jr params fs clock b out hdry h
    rw [engineRun] at h
    by_cases hfin : jr.finished_at ≠ none
    · rw [if_pos hfin] at h
      dsimp only at h
      simp only [Option.some.injEq] at h
      subst h
      exact ⟨JobResult.save_dry _ hdry fs, hdry⟩
    · rw [if_neg hfin] at h
      cases hss : jr.start_step clock fs with
      | error e =>
        rw [hss] at h
        dsimp only at h
        simp only [Option.some.injEq] at h
        subst h
        exact ⟨rfl, hdry⟩
      | ok pair =>
        obtain ⟨jr1, fs1⟩ := pair
        rw [hss] at h
        dsimp only at h
        obtain ⟨hdry1, hfs1⟩ := start_step_dry hdry jr1 fs1 hss
        rw [hfs1] at h
        cases hcs : jr1.get_current_step with
        | none =>
          rw [hcs] at h
          dsimp only at h
          simp only [Option.some.injEq] at h
          subst h
          exact ⟨rfl, hdry1⟩
        | some cs =>
          rw [hcs] at h
          dsimp only at h
          cases hex : execStep cs params with
          | error e =>
            rw [hex] at h
            dsimp only at h
            cases hfs : jr1.finish_step false (clock + 1) fs with
            | error e2 =>
              rw [hfs] at h
              dsimp only at h
              simp only [Option.some.injEq] at h
              subst h
              exact ⟨rfl, hdry1⟩
            | ok pair2 =>
              obtain ⟨jr2, fs2⟩ := pair2
              rw [hfs] at h
              dsimp only at h
              obtain ⟨hdry2, hfs2⟩ := finish_step_dry hdry1 jr2 fs2 hfs
              rw [hfs2] at h
              rw [if_pos hdry2] at h
              simp only [Option.some.injEq] at h
              subst h
              exact ⟨rfl, hdry2⟩
          | ok params1 =>
            rw [hex] at h
            dsimp only at h
            cases hfs : jr1.finish_step true (clock + 1) fs with
            | error e2 =>
              rw [hfs] at h
              dsimp only at h
              rw [if_pos hdry1] at h
              simp only [Option.some.injEq] at h
              subst h
              exact ⟨rfl, hdry1⟩
            | ok pair2 =>
              obtain ⟨jr2, fs2⟩ := pair2
              rw [hfs] at h
              dsimp only at h
              obtain ⟨hdry2, hfs2⟩ := finish_step_dry hdry1 jr2 fs2 hfs
              rw [hfs2] at h
              exact ih jr2 params1 fs (clock + 2) b out hdry2 h

theorem start_step_ok {jr : JobResult} {nm : List Char} (now : Nat) (fs : ResultsFs)
    (hname : jr.current_step_name = some nm)
    (hfind : (jr.steps.find? (fun s => s.name == nm)).isNone = false) :
    ∃ jr1 fs1, jr.start_step now fs = .ok (jr1, fs1) ∧
      jr1.steps = updateFirst jr.steps nm (fun s => s.start now) ∧
      jr1.current_step_name = jr.current_step_name ∧
      jr1.dry_run = jr.dry_run := by
  unfold JobResult.start_step
  rw [hname]
  dsimp only
  rw [hfind]
  simp only [Bool.false_eq_true, if_false]
  exact ⟨_, _, rfl, rfl, rfl, rfl⟩

theorem finish_step_false_ok {jr : JobResult} {nm : List Char} (now : Nat) (fs : ResultsFs)
    (hname : jr.current_step_name = some nm)
    (hfind : (jr.steps.find? (fun s => s.name == nm)).isNone = false) :
    ∃ jr2 fs2, jr.finish_step false now fs = .ok (jr2, fs2) ∧
      jr2.dry_run = jr.dry_run := by
  unfold JobResult.finish_step
  rw [hname]
  dsimp only
  rw [hfind]
  simp only [Bool.false_eq_true, if_false, if_true]
  exact ⟨_, _, rfl, rfl⟩

theorem engineRun_dry_first_error (execStep : StepExec) (fuel : Nat) (jr : JobResult)
    (params : Params) (fs : ResultsFs) (clock : Nat) (b : Bool)
    (cs : RunningScriptStep) (e : List Char)
    (hdry : jr.dry_run = true) (hfin : jr.finished_at = none)
    (hcs : jr.get_current_step = some cs)
    (hexec : execStep (cs.start clock) params = .error e) :
    ∃ jr', engineRun execStep (fuel + 1) jr params fs clock b
      = some ⟨jr', fs, .error ("Error in step ".data ++ cs.name ++ ": ".data ++ e)⟩ := by
  obtain ⟨nm, hname, hfindcs⟩ :
      ∃ nm, jr.current_step_name = some nm ∧
        jr.steps.find? (fun s => s.name == nm) = some cs := by
    unfold JobResult.get_current_step at hcs
    cases hn : jr.current_step_name with
    | none => rw [hn] at hcs; cases hcs
    | some nm0 =>
      rw [hn] at hcs
      simp only [Option.some_bind] at hcs
      exact ⟨nm0, rfl, hcs⟩
  have hfind : (jr.steps.find? (fun s => s.name == nm)).isNone = false := by
    rw [hfindcs]; rfl
  obtain ⟨jr1, fs1, hss, hsteps1, hcur1, hdryeq1⟩ := start_step_ok clock fs hname hfind
  have hdry1 : jr1.dry_run = true := hdryeq1.trans hdry
  obtain ⟨-, hfs1⟩ := start_step_dry hdry jr1 fs1 hss
  rw [hfs1] at hss
  have hname1 : jr1.current_step_name = some nm := hcur1.trans hname
  have hfind1 : jr1.steps.find? (fun s => s.name == nm) = some (cs.start clock) := by
    rw [hsteps1, find?_updateFirst nm (fun s => s.start clock) (fun s => rfl) jr.steps,
      hfindcs]
    rfl
  have hcs1 : jr1.get_current_step = some (cs.start clock) := by
    unfold JobResult.get_current_step
    rw [hname1]
    simp only [Option.some_bind]
    exact hfind1
  have hfind1b : (jr1.steps.find? (fun s => s.name == nm)).isNone = false := by
    rw [hfind1]; rfl
  obtain ⟨jr2, fs2, hfs, hdryeq2⟩ := finish_step_false_ok (clock + 1) fs hname1 hfind1b
  have hdry2 : jr2.dry_run = true := hdryeq2.trans hdry1
  obtain ⟨-, hfs2⟩ := finish_step_dry hdry1 jr2 fs2 hfs
  rw [hfs2] at hfs
  refine ⟨jr2, ?_⟩
  rw [engineRun]
  rw [if_neg (by rw [hfin]; exact fun hc => hc rfl)]
  rw [hss]
  dsimp only
  rw [hcs1]
  dsimp only
  rw [hexec]
  dsimp only
  rw [hfs]
  dsimp only
  rw [if_pos hdry2]
  rfl

/-- C6.  Dry-run purity: (a) a `JobResult` built for a dry run carries the
literal id `dry_run` instead of an allocated one; (b) `save` is a no-op
for dry runs; (c) a whole dry-run engine execution leaves the results
tree exactly as it found it; (d) when the current step's operations fail,
the dry-run engine returns `Error in step <name>: <err>` to the caller
instead of swallowing it. -/
theorem dry_run_purity :
    (∀ (job : Job) (script : Script) (freshId : List Char) (now : Nat),
      (JobResult.ofJobScript job script true freshId now).id = "dry_run".data) ∧
    (∀ (jr : JobResult) (fs : ResultsFs), jr.dry_run = true → jr.save fs = fs) ∧
    (∀ (execStep : StepExec) (fuel : Nat) (jr : JobResult) (params : Params)
        (fs : ResultsFs) (clock : Nat) (b : Bool) (out : EngineOut),
      jr.dry_run = true → engineRun execStep fuel jr params fs clock b = some out →
      out.fs = fs) ∧
    (∀ (execStep : StepExec) (fuel : Nat) (jr : JobResult) (params : Params)
        (fs : ResultsFs) (clock : Nat) (b : Bool) (cs : RunningScriptStep) (e : List Char),
      jr.dry_run = true → jr.finished_at = none → jr.get_current_step = some cs →
      execStep (cs.start clock) params = .error e →
      ∃ jr', engineRun execStep (fuel + 1) jr params fs clock b
        = some ⟨jr', fs, .error ("Error in step ".data ++ cs.name ++ ": ".data ++ e)⟩) :=
  ⟨fun _ _ _ _ => rfl,
   fun jr fs h => JobResult.save_dry jr h fs,
   fun es fuel jr params fs clock b out h1 h2 =>
     (engineRun_dry_frame es fuel jr params fs clock b out h1 h2).1,
   fun es fuel jr params fs clock b cs e h1 h2 h3 h4 =>
     engineRun_dry_first_error es fuel jr params fs clock b cs e h1 h2 h3 h4⟩

/-- C6 witness: the dry-run id, the no-op save, and the propagated first
failure over a concrete one-step dry run starting from an empty results
tree, which stays empty. -/
theorem dry_run_purity_witness :
    (JobResult.ofJobScript jobForScript scriptOneStep true "7".data 0).id = "dry_run".data ∧
    (JobResult.ofJobScript jobForScript scriptOneStep true "7".data 0).save
        ["9/result.yml".data] = ["9/result.yml".data] ∧
    ∃ jr', engineRun failingExec 1
        (JobResult.ofJobScript jobForScript scriptOneStep true "7".data 0)
        (fun _ => none) [] 0 true
      = some ⟨jr', [], .error "Error in step s1: boom".data⟩ :=
  ⟨dry_run_purity.1 jobForScript scriptOneStep "7".data 0,
   dry_run_purity.2.1 _ ["9/result.yml".data] rfl,
   dry_run_purity.2.2.2 failingExec 0
     (JobResult.ofJobScript jobForScript scriptOneStep true "7".data 0)
     (fun _ => none) [] 0 true (RunningScriptStep.ofStep ⟨"s1".data, []⟩) "boom".data
     rfl rfl rfl rfl⟩

theorem findSub_single_some {c : Char} :
    ∀ {s : List Char} {i : Nat}, findSub [c] s = some i →
      i < s.length ∧ s.get? i = some c ∧ c ∉ s.take i := by
  intro s
  induction s with
  | nil => intro i h; simp [findSub] at h
  | cons d rest ih =>
    intro i h
    rw [findSub] at h
    by_cases hpre : List.isPrefixOf [c] (d :: rest)
    · rw [if_pos hpre] at h
      obtain rfl : 0 = i := Option.some_inj.mp h
      have hcd : c = d := by
        simpa [List.isPrefixOf] using hpre
      subst hcd
      exact ⟨by simp, rfl, by simp⟩
    · rw [if_neg hpre] at h
      cases hrest : findSub [c] rest with
      | none => rw [hrest] at h; cases h
      | some j =>
        rw [hrest] at h
        obtain rfl : j + 1 = i := Option.some_inj.mp h
        obtain ⟨h1, h2, h3⟩ := ih hrest
        have hcd : ¬(c = d) := by
          intro he
          exact hpre (by simp [List.isPrefixOf, he])
        refine ⟨by simpa using h1, by simpa using h2, ?_⟩
        intro hmem
        rw [List.take_succ_cons] at hmem
        rcases List.mem_cons.mp hmem with he | hmem'
        · exact hcd he
        · exact h3 hmem'

theorem findSub_single_none {c : Char} :
    ∀ {s : List Char}, findSub [c] s = none → c ∉ s := by
  intro s
  induction s with
  | nil => intro _ h; cases h
  | cons d rest ih =>
    intro h hmem
    rw [findSub] at h
    by_cases hpre : List.isPrefixOf [c] (d :: rest)
    · rw [if_pos hpre] at h; cases h
    · rw [if_neg hpre] at h
      have hcd : ¬(c = d) := by
        intro he
        exact hpre (by simp [List.isPrefixOf, he])
      rcases List.mem_cons.mp hmem with he | hmem'
      · exact hcd he
      · cases hrest : findSub [c] rest with
        | none => exact ih hrest hmem'
        | some j => rw [hrest] at h; cases h

theorem getLast?_take_succ {s : List Char} {i : Nat} {c : Char}
    (h : s.get? i = some c) : (s.take (i + 1)).getLast? = some c := by
  rw [List.take_succ, ← List.get?_eq_getElem?, h]
  simp

theorem getLast?_append_right {l1 l2 : List Char} (h : l2 ≠ []) :
    (l1 ++ l2).getLast? = l2.getLast? := by
  rw [List.getLast?_append]
  cases hl : l2.getLast? with
  | none => exact absurd (List.getLast?_eq_none_iff.mp hl) h
  | some c => rfl

theorem getLast?_cons_ne {c : Char} {l : List Char} (h : l ≠ []) :
    (c :: l).getLast? = l.getLast? := by
  rw [show (c :: l) = [c] ++ l from rfl, getLast?_append_right h]

theorem replaceAllAux_nil (pat val : List Char) :
    ∀ fuel, replaceAllAux pat val fuel [] = [] := by
  intro fuel
  cases fuel <;> rfl

/-- Replacing with a newline-free string never increases the newline
count. -/
theorem count_replaceAllAux (pat val : List Char) (hval : '\n' ∉ val) :
    ∀ (fuel : Nat) (s : List Char),
      (replaceAllAux pat val fuel s).count '\n' ≤ s.count '\n' := by
  intro fuel
  induction fuel with
  | zero => intro s; exact le_refl _
  | succ f ih =>
    intro s
    cases s with
    | nil => simp [replaceAllAux]
    | cons c rest =>
      rw [replaceAllAux]
      by_cases hbr : pat ≠ [] ∧ List.isPrefixOf pat (c :: rest)
      · rw [if_pos hbr]
        rw [List.count_append]
        have hv0 : val.count '\n' = 0 := List.count_eq_zero.mpr hval
        have hsplit : (c :: rest).count '\n'
            = ((c :: rest).take pat.length).count '\n'
              + ((c :: rest).drop pat.length).count '\n' := by
          rw [← List.count_append, List.take_append_drop]
        have := ih ((c :: rest).drop pat.length)
        omega
      · rw [if_neg hbr]
        rw [List.count_cons, List.count_cons]
        have := ih rest
        omega

/-- Replacing a pattern that does not end in `\n` keeps a trailing `\n`
in place. -/
theorem getLast?_replaceAllAux (pat val : List Char) (hpat : pat.getLast? ≠ some '\n') :
    ∀ (fuel : Nat) (s : List Char), s.length ≤ fuel → s.getLast? = some '\n' →
      (replaceAllAux pat val fuel s).getLast? = some '\n' := by
  intro fuel
  induction fuel with
  | zero =>
    intro s hlen hlast
    obtain rfl : s = [] := List.length_eq_zero.mp (Nat.le_zero.mp hlen)
    cases hlast
  | succ f ih =>
    intro s hlen hlast
    cases s with
    | nil => cases hlast
    | cons c rest =>
      rw [replaceAllAux]
      by_cases hbr : pat ≠ [] ∧ List.isPrefixOf pat (c :: rest)
      · rw [if_pos hbr]
        have hpre : pat <+: (c :: rest) := List.isPrefixOf_iff_prefix.mp hbr.2
        have hsplit : pat ++ (c :: rest).drop pat.length = c :: rest :=
          List.prefix_iff_eq_append.mp hpre
        by_cases hdrop : (c :: rest).drop pat.length = []
        · exfalso
          rw [hdrop, List.append_nil] at hsplit
          rw [← hsplit] at hlast
          exact hpat hlast
        · have hlast' : ((c :: rest).drop pat.length).getLast? = some '\n' := by
            rw [← getLast?_append_right hdrop, hsplit]
            exact hlast
          have hlen' : ((c :: rest).drop pat.length).length ≤ f := by
            have hp1 : 0 < pat.length := List.length_pos.mpr hbr.1
            have h1 : ((c :: rest).drop pat.length).length = (c :: rest).length - pat.length :=
              List.length_drop _ _
            have h2 : (c :: rest).length = rest.length + 1 := by simp
            rw [h1, h2]
            simp only [List.length_cons] at hlen
            omega
          have hrec := ih _ hlen' hlast'
          have hrecne : replaceAllAux pat val f ((c :: rest).drop pat.length) ≠ [] := by
            intro h0; rw [h0] at hrec; cases hrec
          rw [getLast?_append_right hrecne]
          exact hrec
      · rw [if_neg hbr]
        cases rest with
        | nil =>
          have hc : c = '\n' := by simpa using hlast
          rw [replaceAllAux_nil]
          simp [hc]
        | cons d rest' =>
          have hrestne : (d :: rest') ≠ [] := by simp
          have hlast' : (d :: rest').getLast? = some '\n' := by
            rw [← getLast?_cons_ne hrestne]
            exact hlast
          have hlen' : (d :: rest').length ≤ f := by
            simp only [List.length_cons] at hlen ⊢
            omega
          have hrec := ih _ hlen' hlast'
          have hrecne : replaceAllAux pat val f (d :: rest') ≠ [] := by
            intro h0; rw [h0] at hrec; cases hrec
          rw [getLast?_cons_ne hrecne]
          exact hrec

theorem rustLinesAux_nil : ∀ fuel, rustLinesAux fuel [] = [] := by
  intro fuel
  cases fuel with
  | zero => rfl
  | succ f => rw [rustLinesAux, if_pos rfl]

/-- The number of lines, as `str::lines` counts them: the newline count,
plus one for a final fragment lacking its terminator. -/
theorem rustLinesAux_length :
    ∀ (fuel : Nat) (s : List Char), s.length ≤ fuel →
      (rustLinesAux fuel s).length
        = s.count '\n'
          + (if s = [] then 0 else if s.getLast? = some '\n' then 0 else 1) := by
  intro fuel
  induction fuel with
  | zero =>
    intro s hlen
    obtain rfl : s = [] := List.length_eq_zero.mp (Nat.le_zero.mp hlen)
    simp [rustLinesAux]
  | succ f ih =>
    intro s hlen
    by_cases hs : s = []
    · subst hs; simp [rustLinesAux]
    · rw [rustLinesAux, if_neg hs]
      cases hfind : findSub ['\n'] s with
      | none =>
        dsimp only
        have hnot : '\n' ∉ s := findSub_single_none hfind
        have hcount : s.count '\n' = 0 := List.count_eq_zero.mpr hnot
        have hlast : s.getLast? ≠ some '\n' := by
          intro h
          exact hnot (List.mem_of_mem_getLast? h)
        rw [hcount, if_neg hs, if_neg hlast]
        rfl
      | some i =>
        dsimp only
        obtain ⟨hi, hget, hnotin⟩ := findSub_single_some hfind
        have htakelast : (s.take (i + 1)).getLast? = some '\n' := getLast?_take_succ hget
        have htakecount : (s.take (i + 1)).count '\n' = 1 := by
          rw [List.take_succ, ← List.get?_eq_getElem?, hget]
          rw [List.count_append]
          rw [List.count_eq_zero.mpr hnotin]
          rfl
        have hcount : s.count '\n' = 1 + (s.drop (i + 1)).count '\n' := by
          conv_lhs => rw [← List.take_append_drop (i + 1) s]
          rw [List.count_append, htakecount]
        have hlen' : (s.drop (i + 1)).length ≤ f := by
          rw [List.length_drop]
          have hpos : 0 < s.length := List.length_pos.mpr hs
          omega
        by_cases hd : s.drop (i + 1) = []
        · rw [hd, rustLinesAux_nil]
          have hslast : s.getLast? = some '\n' := by
            conv_lhs => rw [← List.take_append_drop (i + 1) s]
            rw [hd, List.append_nil]
            exact htakelast
          rw [hcount, hd, if_neg hs, if_pos hslast]
          simp
        · have hih := ih _ hlen'
          have hslast : s.getLast? = (s.drop (i + 1)).getLast? := by
            conv_lhs => rw [← List.take_append_drop (i + 1) s]
            exact getLast?_append_right hd
          rw [List.length_cons, hih, hcount, if_neg hs, if_neg hd, hslast]
          omega

theorem lineCount_eq (s : List Char) :
    lineCount s = s.count '\n'
      + (if s = [] then 0 else if s.getLast? = some '\n' then 0 else 1) :=
  rustLinesAux_length s.length s (le_refl _)

/-- Replacing a pattern that does not end in `\n` by a newline-free string
never increases the line count. -/
theorem lineCount_replaceAll_le (pat val s : List Char) (hval : '\n' ∉ val)
    (hpat : pat.getLast? ≠ some '\n') :
    lineCount (replaceAll pat val s) ≤ lineCount s := by
  have hc : (replaceAll pat val s).count '\n' ≤ s.count '\n' :=
    count_replaceAllAux pat val hval s.length s
  by_cases hs : s = []
  · subst hs
    rw [show replaceAll pat val [] = [] from replaceAllAux_nil pat val 0]
  · by_cases hlast : s.getLast? = some '\n'
    · have hrl : (replaceAll pat val s).getLast? = some '\n' :=
        getLast?_replaceAllAux pat val hpat s.length s (le_refl _) hlast
      have hne : replaceAll pat val s ≠ [] := by
        intro h0; rw [h0] at hrl; cases hrl
      rw [lineCount_eq, lineCount_eq, if_neg hs, if_pos hlast, if_neg hne, if_pos hrl]
      omega
    · rw [lineCount_eq, lineCount_eq, if_neg hs, if_neg hlast]
      split_ifs <;> omega

/-- Across a whole substitution run whose parameter values render without
newlines, a successful `Single` result never has more lines than the
template. -/
theorem substituteFuel_lineCount (params : Params) (optional : Bool)
    (hvals : ∀ k v, params k = some v → '\n' ∉ renderValue v) :
    ∀ (fuel : Nat) (t s : List Char),
      substituteFuel params optional fuel t = some (.ok (some (.Single s))) →
      lineCount s ≤ lineCount t := by
  intro fuel
  induction fuel with
  | zero => intro t s h; simp [substituteFuel] at h
  | succ n ih =>
    intro t s h
    rw [substituteFuel] at h
    dsimp only at h
    cases hfind : findSub ['$', '('] t with
    | none =>
      rw [hfind] at h
      dsimp only at h
      obtain rfl : t = s := by
        have := Option.some_inj.mp h
        cases this
        rfl
      exact le_refl _
    | some start =>
      rw [hfind] at h
      dsimp only at h
      cases hclose : findSub [')'] (t.drop start) with
      | none => rw [hclose] at h; simp at h
      | some e =>
        rw [hclose] at h
        dsimp only at h
        cases hval : params (((t.drop start).drop 2).take (e - 2)) with
        | none =>
          rw [hval] at h
          dsimp only at h
          split at h <;> simp at h
        | some v =>
          rw [hval] at h
          dsimp only at h
          have hnonl : '\n' ∉ renderValue v := hvals _ v hval
          have hgl : (((t.drop start).take (e + 1)).getLast?) = some ')' :=
            getLast?_take_succ (findSub_single_some hclose).2.1
          have hglne : (((t.drop start).take (e + 1)).getLast?) ≠ some '\n' := by
            rw [hgl]
            intro hcontra
            cases Option.some_inj.mp hcontra
          have hstep : lineCount (replaceAll ((t.drop start).take (e + 1))
              (renderValue v) t) ≤ lineCount t :=
            lineCount_replaceAll_le _ _ t hnonl hglne
          by_cases hpure : start = 0 ∧ e = (t.drop start).length - 1
          · rw [if_pos hpure] at h
            cases v with
            | StringArray arr => simp at h
            | String s' => exact le_trans (ih _ _ h) hstep
            | Boolean b => exact le_trans (ih _ _ h) hstep
            | Number k => exact le_trans (ih _ _ h) hstep
            | Password p' => exact le_trans (ih _ _ h) hstep
            | Credential c => exact le_trans (ih _ _ h) hstep
          · rw [if_neg hpure] at h
            exact le_trans (ih _ _ h) hstep

theorem bashLoop_no_panic (orig : List (List Char))
    (runCmd : List Char → Except (List Char) Unit) (dry : Bool) :
    ∀ (ls : List (List Char)) (i : Nat), i + ls.length ≤ orig.length →
      bashLoop orig runCmd dry i ls ≠ .panic := by
  intro ls
  induction ls with
  | nil =>
    intro i _
    simp [bashLoop]
  | cons line rest ih =>
    intro i hlen
    rw [bashLoop]
    by_cases hline : line = []
    · rw [if_pos hline]
      apply ih
      simp only [List.length_cons] at hlen
      omega
    · rw [if_neg hline]
      have hi : i < orig.length := by
        simp only [List.length_cons] at hlen
        omega
      obtain ⟨a, ha⟩ : ∃ a, orig.get? i = some a :=
        ⟨orig.get ⟨i, hi⟩, List.get?_eq_get hi⟩
      rw [ha]
      dsimp only
      have hrecne : bashLoop orig runCmd dry (i + 1) rest ≠ .panic := by
        apply ih
        simp only [List.length_cons] at hlen
        omega
      cases dry with
      | true =>
        simp only [if_true]
        cases hrec : bashLoop orig runCmd true (i + 1) rest with
        | ok logs => simp
        | panic => exact absurd hrec hrecne
        | fuelOut => simp
        | err m => simp
      | false =>
        simp only [Bool.false_eq_true, if_false]
        cases hcmd : runCmd line with
        | error e => simp
        | ok u =>
          dsimp only
          cases hrec : bashLoop orig runCmd false (i + 1) rest with
          | ok logs => simp
          | panic => exact absurd hrec hrecne
          | fuelOut => simp
          | err m => simp

/-- C10 counterexample.  Substituting an empty string for a lone `$(k)`
token collapses the code to the empty string: the substituted code has 0
lines where the original has 1, so the claimed exact line-count equality
fails (the loop then simply runs zero iterations — no panic). -/
theorem bash_line_count_counterexample :
    substituteFuel (fun k => if k = "k".data then some (.String []) else none)
        false 2 "$(k)".data = some (.ok (some (.Single []))) ∧
    (rustLines "$(k)".data).length = 1 ∧
    (rustLines ([] : List Char)).length = 0 ∧
    (rustLines "$(k)".data).length ≠ (rustLines ([] : List Char)).length :=
  ⟨rfl, rfl, rfl, by decide⟩

/-- C10 (amended).  When substitution succeeds and no parameter value of
the map renders with a newline, the substituted code has **at most** as
many lines as the original code (an empty value can collapse lines), so
the index into the original (pre-substitution) lines stays in bounds and
`BashScript::execute` never reaches the out-of-bounds panic. -/
theorem bash_no_panic (code : List Char) (params : Params) (fuel : Nat)
    (runCmd : List Char → Except (List Char) Unit) (dryRun : Bool)
    (hvals : ∀ k v, params k = some v → '\n' ∉ renderValue v) :
    bashExecute code params fuel runCmd dryRun ≠ .panic := by
  unfold bashExecute
  cases hsub : substituteFuel params false fuel code with
  | none => simp
  | some r =>
    cases r with
    | error e => simp
    | ok o =>
      cases o with
      | none => simp
      | some sr =>
        cases sr with
        | Multiple a => simp
        | Single s =>
          dsimp only
          have hlc : lineCount s ≤ lineCount code :=
            substituteFuel_lineCount params false hvals fuel code s hsub
          apply bashLoop_no_panic
          simp only [lineCount] at hlc
          omega

/-- C10 witness: a concrete bash step with one substituted parameter —
line counts agree and the panic branch is unreachable. -/
theorem bash_no_panic_witness :
    bashExecute "echo $(parameters.x)".data
      (fun k => if k = "parameters.x".data then some (.String "1".data) else none)
      2 (fun _ => .ok ()) false ≠ .panic :=
  bash_no_panic _ _ 2 _ false (by
    intro k v h
    by_cases hk : k = "parameters.x".data
    · rw [if_pos hk] at h
      cases Option.some_inj.mp h
      decide
    · rw [if_neg hk] at h
      cases h)

end Nomos

